import Mathlib

/-!
Verification development for the RAT (retrieval-augmented thinking) chat client
(`src/jarvis/jarvis.py`).  Text is modelled as `List Char`; the streaming
`<think>...</think>` tag-extraction loop of `get_ollama_deepseek_reasoning`
(lines 140-176) is embedded as a fold of a step function over the decoded
stream fragments, and the session state (the three message logs, the model
selector and the flags) is embedded as an explicit record with the mutating
methods as pure state transformers.  Network transports are parameters:
a transport is either a fault (the Python `except` path) or the list of
stream fragments delivered in order.
-/

/-- Substring search, modelling Python `pat in hay`, `hay.find(pat)` and the
slices `hay[:i]` / `hay[i + len(pat):]` in one operation: `splitOnce pat hay`
returns `some (before, after)` for the first occurrence of `pat` in `hay`
(`before`/`after` are the text strictly before / strictly after that
occurrence), and `none` when `pat` does not occur. -/
def splitOnce (pat : List Char) : List Char → Option (List Char × List Char)
  | [] => if pat.isPrefixOf ([] : List Char) then some ([], []) else none
  | a :: t =>
    if pat.isPrefixOf (a :: t) then some ([], (a :: t).drop pat.length)
    else
      match splitOnce pat t with
      | some (p, s) => some (a :: p, s)
      | none => none

/-- Python `pat in hay`. -/
def hasSubstr (hay pat : List Char) : Bool :=
  (splitOnce pat hay).isSome

/-- The literal opening delimiter `"<think>"` (7 characters). -/
def thinkOpen : List Char := "<think>".toList

/-- The literal closing delimiter `"</think>"` (8 characters). -/
def thinkClose : List Char := "</think>".toList

/-- The mutable loop state of `get_ollama_deepseek_reasoning` (lines 140-142):
`reasoning_content`, `current_chunk`, `has_started_think`, plus `done`
recording that the `break` at line 168 was executed (the stream was closed at
the closing tag, i.e. completion was signaled). -/
structure AccState where
  reasoning : List Char
  current : List Char
  started : Bool
  done : Bool
deriving DecidableEq, Repr

/-- Lines 160-173: once `has_started_think` holds, search `current_chunk` for
`"</think>"`; on a hit append the text before it plus the literal closing tag
to `reasoning_content`, close the stream and break (`done := true`); otherwise
append all of `current_chunk` to `reasoning_content` and clear it. -/
def closeScan (reasoning cur : List Char) : AccState :=
  match splitOnce thinkClose cur with
  | some (b, _) => ⟨reasoning ++ b ++ thinkClose, cur, true, true⟩
  | none => ⟨reasoning ++ cur, [], true, false⟩

/-- One iteration of the `for line` body for a decoded content fragment
(lines 150-173).  `current_chunk += content`; if the opening tag has not been
seen and `"<think>"` now occurs, drop everything up to and including its first
occurrence, record the literal opening tag, and fall through to the closing
scan; if the opening tag had already been seen, run the closing scan; else
just keep buffering.  After the `break` (`done`) no further fragment is read. -/
def processContent (s : AccState) (content : List Char) : AccState :=
  if s.done then s
  else
    let cur := s.current ++ content
    if s.started then closeScan s.reasoning cur
    else
      match splitOnce thinkOpen cur with
      | some (_, r) => closeScan (s.reasoning ++ thinkOpen) r
      | none => ⟨s.reasoning, cur, false, false⟩

/-- The accumulator run over a list of decoded content fragments, from the
initial state of lines 140-142. -/
def runAcc (cs : List (List Char)) : AccState :=
  cs.foldl processContent ⟨[], [], false, false⟩

/-- One raw line of the newline-delimited JSON stream of the local backend
(lines 144-148): it may be empty (skipped by `if line:`), fail JSON decoding
(the `except json.JSONDecodeError: continue` path), decode but lack a
`message.content` field, or carry a content fragment. -/
inductive OllamaLine where
  | emptyLine : OllamaLine
  | badJson : OllamaLine
  | noContentLine : OllamaLine
  | msg : List Char → OllamaLine
deriving DecidableEq, Repr

/-- The guard cascade of lines 145-149: only a decodable line with a
`message.content` field yields a content fragment. -/
def decodeLine : OllamaLine → Option (List Char)
  | OllamaLine.msg c => some c
  | _ => none

/-- One iteration of the reasoning `for line` loop (lines 144-176). -/
def processLine (s : AccState) (l : OllamaLine) : AccState :=
  match decodeLine l with
  | some c => processContent s c
  | none => s

/-- The whole reasoning stream loop of `get_ollama_deepseek_reasoning`. -/
def runReasoningStream (ls : List OllamaLine) : AccState :=
  ls.foldl processLine ⟨[], [], false, false⟩

example : (runAcc ["<th".toList, "ink>partial".toList, " reasoning</think>".toList]).reasoning
    = "<think>partial reasoning</think>".toList := by decide
example : (runAcc ["<th".toList, "ink>partial".toList, " reasoning</thi".toList, "nk>".toList]).done
    = false := by decide
example : (runAcc ["hello".toList, "world".toList]).reasoning = [] := by decide

/-! ### Terminal-output instrumented variants

`show_reasoning` only gates the `print(..., end="", flush=True)` calls inside
the loop (lines 155-156, 163-165, 170-171).  To state that the flag never
influences the returned value we pair the state with the characters printed
so far and thread the flag through. -/

/-- Lines 160-173 with the gated prints of lines 163-165 and 170-171. -/
def closeScanPrint (show_ : Bool) (reasoning cur printed : List Char) :
    AccState × List Char :=
  match splitOnce thinkClose cur with
  | some (b, _) =>
      (⟨reasoning ++ b ++ thinkClose, cur, true, true⟩,
        printed ++ (if show_ then b ++ thinkClose else []))
  | none =>
      (⟨reasoning ++ cur, [], true, false⟩,
        printed ++ (if show_ then cur else []))

/-- `processContent` with the gated prints (also the `print("<think>", ...)`
of lines 155-156). -/
def processContentPrint (show_ : Bool) (sp : AccState × List Char)
    (content : List Char) : AccState × List Char :=
  if sp.1.done then sp
  else
    let cur := sp.1.current ++ content
    if sp.1.started then closeScanPrint show_ sp.1.reasoning cur sp.2
    else
      match splitOnce thinkOpen cur with
      | some (_, r) =>
          closeScanPrint show_ (sp.1.reasoning ++ thinkOpen) r
            (sp.2 ++ (if show_ then thinkOpen else []))
      | none => (⟨sp.1.reasoning, cur, false, false⟩, sp.2)

/-- `processLine` with prints. -/
def processLinePrint (show_ : Bool) (sp : AccState × List Char)
    (l : OllamaLine) : AccState × List Char :=
  match decodeLine l with
  | some c => processContentPrint show_ sp c
  | none => sp

/-- The reasoning stream loop with terminal output accumulated. -/
def runReasoningStreamPrint (show_ : Bool) (ls : List OllamaLine) :
    AccState × List Char :=
  ls.foldl (processLinePrint show_) (⟨[], [], false, false⟩, [])

/-! ### The hosted (official DeepSeek) reasoning stream

Lines 94-104: each delta carries a `reasoning_content` and/or a `content`
field; a Python-falsy field (absent or empty) is modelled as `[]`.  Only the
truthy `reasoning_content` branch prints (gated by `show_reasoning`), and only
`reasoning_content` is returned. -/

/-- One delta of the hosted stream: `(reasoning_content, content)`, with `[]`
for a falsy field. -/
def officialStep (acc : List Char × List Char) (d : List Char × List Char) :
    List Char × List Char :=
  if d.1 ≠ [] then (acc.1 ++ d.1, acc.2)
  else if d.2 ≠ [] then (acc.1, acc.2 ++ d.2)
  else acc

/-- `(reasoning_content, final_content)` accumulated over the hosted stream. -/
def officialRun (ds : List (List Char × List Char)) : List Char × List Char :=
  ds.foldl officialStep ([], [])

/-- `officialStep` with the gated print of line 102. -/
def officialStepPrint (show_ : Bool)
    (acc : (List Char × List Char) × List Char) (d : List Char × List Char) :
    (List Char × List Char) × List Char :=
  if d.1 ≠ [] then
    ((acc.1.1 ++ d.1, acc.1.2), acc.2 ++ (if show_ then d.1 else []))
  else if d.2 ≠ [] then ((acc.1.1, acc.1.2 ++ d.2), acc.2)
  else acc

/-- The hosted reasoning loop with terminal output accumulated. -/
def officialRunPrint (show_ : Bool) (ds : List (List Char × List Char)) :
    (List Char × List Char) × List Char :=
  ds.foldl (officialStepPrint show_) (([], []), [])

/-! ### Session state (`ModelChain`) -/

/-- Message roles of the chat protocol. -/
inductive Role where
  | system : Role
  | user : Role
  | assistant : Role
deriving DecidableEq, Repr

/-- A chat message `{"role": ..., "content": ...}`. -/
structure Message where
  role : Role
  content : List Char
deriving DecidableEq, Repr

/-- Model name constants (lines 15-18). -/
def DEEPSEEK_MODEL : List Char := "deepseek-reasoner".toList

/-- Line 16. -/
def OPENROUTER_MODEL : List Char := "openai/gpt-4o-mini".toList

/-- Line 17. -/
def OLLAMA_MODEL : List Char := "qwen2.5:14b".toList

/-- Line 18. -/
def OLLAMA_DEEPSEEK : List Char := "deepseek-r1:14b".toList

/-- The sentinel returned by both response strategies (and by the local
reasoning strategy) on a transport fault (lines 180, 224, 270). -/
def errorSentinel : List Char := "Error occurred while streaming response".toList

/-- The mutable state of a `ModelChain` (lines 24-58); the two API-key
booleans are the configuration (`has_openrouter`, `has_official_deepseek`). -/
structure Session where
  deepseekMessages : List Message
  openrouterMessages : List Message
  ollamaMessages : List Message
  currentModel : List Char
  showReasoning : Bool
  useOllamaDeepseek : Bool
  hasOpenrouter : Bool
  hasOfficialDeepseek : Bool
deriving DecidableEq, Repr

/-- `set_model` (lines 60-66).  The returned Bool records whether the warning
of line 62 was printed. -/
def set_model (s : Session) (model_name : List Char) : Session × Bool :=
  if ¬ s.hasOpenrouter ∧ ¬ ("ollama:".toList.isPrefixOf model_name) then
    ({ s with
        currentModel := OLLAMA_MODEL,
        useOllamaDeepseek := "ollama:deepseek".toList.isPrefixOf model_name },
      true)
  else
    ({ s with
        currentModel := model_name,
        useOllamaDeepseek := "ollama:deepseek".toList.isPrefixOf model_name },
      false)

/-- The combined prompt template of lines 194-197 / 233-236. -/
def combinedPrompt (user_input reasoning : List Char) : List Char :=
  "<question>".toList ++ user_input ++ "</question>\n\n".toList
    ++ reasoning ++ "\n\n".toList

/-- The per-call request message list the local reasoning strategy sends
(lines 124-127).  Note it is built fresh on every call and is not any of the
three session logs. -/
def ollamaReasoningMessages (user_input : List Char) : List Message :=
  [⟨Role.system, ("You are a helpful assistant that thinks step by step. Format your response as: <think>your step by step reasoning</think> and stop immediately after closing the think tag.").toList⟩,
   ⟨Role.user, "Analyze this request step by step:\n".toList ++ user_input⟩]

/-- `get_official_deepseek_reasoning` (lines 80-115) at the session level:
append the user message to `deepseek_messages` (line 82), then drain the
hosted stream and return the accumulated `reasoning_content`.  (This path has
no try/except; transport faults propagate, so the stream is a plain list.) -/
def get_official_deepseek_reasoning (s : Session) (user_input : List Char)
    (ds : List (List Char × List Char)) : Session × List Char :=
  ({ s with deepseekMessages :=
      s.deepseekMessages ++ [⟨Role.user, user_input⟩] },
    (officialRun ds).1)

/-- `get_ollama_deepseek_reasoning` (lines 117-191) at the session level: no
session log is touched; on a transport fault (the `except Exception` at line
178) the sentinel is returned; otherwise the tag accumulator drains the
stream.  `Except.error ()` is the fault case. -/
def get_ollama_deepseek_reasoning (s : Session) (_user_input : List Char)
    (t : Except Unit (List OllamaLine)) : Session × List Char :=
  match t with
  | Except.error _ => (s, errorSentinel)
  | Except.ok ls => (s, (runReasoningStream ls).reasoning)

/-- One chunk of the OpenRouter completion stream (lines 211-220): reading
`chunk.choices[0].delta` may itself raise (skipped by the inner
try/except), the delta may lack usable content, or it carries a piece. -/
inductive ORChunk where
  | errChunk : ORChunk
  | noContent : ORChunk
  | piece : List Char → ORChunk
deriving DecidableEq, Repr

/-- The `full_response` accumulation step of lines 211-220. -/
def orStep (acc : List Char) (c : ORChunk) : List Char :=
  match c with
  | ORChunk.piece p => acc ++ p
  | _ => acc

/-- `get_openrouter_response` (lines 193-230): append the combined prompt as
a user message to `openrouter_messages` (line 199, before the try block); on
a transport fault return the sentinel immediately (line 224) — the appends of
lines 226-227 are skipped; on success append the assembled response as an
assistant message to both `deepseek_messages` and `openrouter_messages`. -/
def get_openrouter_response (s : Session) (user_input reasoning : List Char)
    (t : Except Unit (List ORChunk)) : Session × List Char :=
  let s1 := { s with openrouterMessages :=
      s.openrouterMessages ++ [⟨Role.user, combinedPrompt user_input reasoning⟩] }
  match t with
  | Except.error _ => (s1, errorSentinel)
  | Except.ok cs =>
      let full := cs.foldl orStep []
      ({ s1 with
          deepseekMessages := s1.deepseekMessages ++ [⟨Role.assistant, full⟩],
          openrouterMessages := s1.openrouterMessages ++ [⟨Role.assistant, full⟩] },
        full)

/-- The `full_response` accumulation step of the local response loop
(lines 257-266), sharing the line decoding of the reasoning loop. -/
def respLineStep (acc : List Char) (l : OllamaLine) : List Char :=
  match decodeLine l with
  | some c => acc ++ c
  | none => acc

/-- `get_ollama_response` (lines 232-276): the request message list is local
(lines 238-241), so nothing is appended before the call; on a transport fault
return the sentinel (line 270), skipping the appends of lines 272-273; on
success append the assembled response as an assistant message to both
`deepseek_messages` and `ollama_messages`. -/
def get_ollama_response (s : Session) (_user_input _reasoning : List Char)
    (t : Except Unit (List OllamaLine)) : Session × List Char :=
  match t with
  | Except.error _ => (s, errorSentinel)
  | Except.ok ls =>
      let full := ls.foldl respLineStep []
      ({ s with
          deepseekMessages := s.deepseekMessages ++ [⟨Role.assistant, full⟩],
          ollamaMessages := s.ollamaMessages ++ [⟨Role.assistant, full⟩] },
        full)

/-- The transports consumed during one turn; the dispatchers pick the one
matching the selected strategy. -/
structure TurnStreams where
  official : List (List Char × List Char)
  ollamaReason : Except Unit (List OllamaLine)
  openrouterResp : Except Unit (List ORChunk)
  ollamaResp : Except Unit (List OllamaLine)

/-- `get_deepseek_reasoning` (lines 71-78): use the local path when no
official API key is configured or the Ollama-DeepSeek override is active. -/
def get_deepseek_reasoning (s : Session) (user_input : List Char)
    (t : TurnStreams) : Session × List Char :=
  if ¬ s.hasOfficialDeepseek ∨ s.useOllamaDeepseek then
    get_ollama_deepseek_reasoning s user_input t.ollamaReason
  else get_official_deepseek_reasoning s user_input t.official

/-- `get_response` (lines 278-283): use the local path when no OpenRouter key
is configured or the selector has the `"ollama:"` prefix. -/
def get_response (s : Session) (user_input reasoning : List Char)
    (t : TurnStreams) : Session × List Char :=
  if ¬ s.hasOpenrouter ∨ "ollama:".toList.isPrefixOf s.currentModel then
    get_ollama_response s user_input reasoning t.ollamaResp
  else get_openrouter_response s user_input reasoning t.openrouterResp

/-- One user turn of the `main` loop (lines 339-340). -/
def run_turn (s : Session) (user_input : List Char) (t : TurnStreams) :
    Session × List Char :=
  let r := get_deepseek_reasoning s user_input t
  get_response r.1 user_input r.2 t

/-- The `clear` command of the main loop (lines 320-325). -/
def clear_history (s : Session) : Session :=
  { s with deepseekMessages := [], openrouterMessages := [], ollamaMessages := [] }

/-! ### Elapsed-time label (lines 106-110 and 182-186)

Durations are modelled as exact rationals; Python `f"{x:.1f}"` (round to one
decimal, ties to even, as CPython formats nonnegative values) is modelled by
`fmt1`. -/

/-- Decimal digits of a natural number, most significant first; the first
argument is structural fuel (call with `n + 1`). -/
def digitsAux : Nat → Nat → List Char
  | 0, _ => []
  | f + 1, n =>
    if n < 10 then [Nat.digitChar n]
    else digitsAux f (n / 10) ++ [Nat.digitChar (n % 10)]

/-- Decimal rendering of a natural number. -/
def natToChars (n : Nat) : List Char := digitsAux (n + 1) n

/-- Round a rational to the nearest integer, ties to even. -/
def roundHalfEven (q : ℚ) : ℤ :=
  if q - ⌊q⌋ < 1 / 2 then ⌊q⌋
  else if q - ⌊q⌋ = 1 / 2 then (if 2 ∣ ⌊q⌋ then ⌊q⌋ else ⌊q⌋ + 1)
  else ⌊q⌋ + 1

/-- Python `f"{q:.1f}"` for a nonnegative rational `q`. -/
def fmt1 (q : ℚ) : List Char :=
  let t : Nat := (roundHalfEven (q * 10)).toNat
  natToChars (t / 10) ++ ['.'] ++ natToChars (t % 10)

/-- The elapsed-time label of lines 182-186 (identical code at 106-110):
minutes with one decimal when at least 60 seconds, else seconds with one
decimal. -/
def time_str (elapsed : ℚ) : List Char :=
  if 60 ≤ elapsed then fmt1 (elapsed / 60) ++ " minutes".toList
  else fmt1 elapsed ++ " seconds".toList

example : time_str 45 = "45.0 seconds".toList := by
  have h : roundHalfEven ((450 : ℚ)) = 450 := by unfold roundHalfEven; norm_num
  rw [time_str, if_neg (by norm_num), fmt1]
  norm_num
  rw [h]
  decide

example : time_str 125 = "2.1 minutes".toList := by
  have h : roundHalfEven ((125 : ℚ) / 6) = 21 := by unfold roundHalfEven; norm_num
  rw [time_str, if_pos (by norm_num), fmt1]
  norm_num
  rw [h]
  decide

/-! ### Characterization of `splitOnce`

`splitOnce pat hay = some (p, s)` holds exactly when `hay = p ++ pat ++ s`
and no occurrence of `pat` starts before position `p.length`. -/

theorem splitOnce_eq_some_iff {pat : List Char} (hpat : pat ≠ []) :
    ∀ {hay p s : List Char},
      splitOnce pat hay = some (p, s) ↔
        (p ++ (pat ++ s) = hay ∧ ∀ q, q < p.length → ¬ pat <+: hay.drop q) := by
  intro hay
  induction hay with
  | nil =>
    intro p s
    have hfalse : pat.isPrefixOf ([] : List Char) = false := by
      cases pat with
      | nil => exact absurd rfl hpat
      | cons a t => rfl
    simp only [splitOnce, hfalse, Bool.false_eq_true, if_false]
    constructor
    · intro h; exact absurd h (by simp)
    · rintro ⟨hdec, -⟩
      rcases List.append_eq_nil.mp hdec with ⟨-, h2⟩
      rcases List.append_eq_nil.mp h2 with ⟨h3, -⟩
      exact absurd h3 hpat
  | cons a t ih =>
    intro p s
    by_cases hpre : pat.isPrefixOf (a :: t)
    · simp only [splitOnce, hpre, if_true, Option.some.injEq, Prod.mk.injEq]
      constructor
      · rintro ⟨hp, hs⟩
        subst hp hs
        refine ⟨?_, by intro q hq; exact absurd hq (by simp)⟩
        obtain ⟨u, hu⟩ := List.isPrefixOf_iff_prefix.mp hpre
        rw [← hu, List.drop_left]
        simp
      · rintro ⟨hdec, hmin⟩
        have hp : p = [] := by
          by_contra hne
          exact hmin 0 (by cases p with
            | nil => exact absurd rfl hne
            | cons b l => simp) (by simpa using List.isPrefixOf_iff_prefix.mp hpre)
        subst hp
        simp only [List.nil_append] at hdec
        exact ⟨rfl, by rw [← hdec, List.drop_left]⟩
    · have hnotp : ¬ pat <+: (a :: t) := fun h => hpre (List.isPrefixOf_iff_prefix.mpr h)
      rcases hrec : splitOnce pat t with - | ⟨p', s'⟩
      · simp only [splitOnce, hpre, Bool.false_eq_true, if_false, hrec]
        constructor
        · intro h; exact absurd h (by simp)
        · rintro ⟨hdec, hmin⟩
          cases p with
          | nil =>
            simp only [List.nil_append] at hdec
            exact absurd ⟨s, hdec⟩ hnotp
          | cons b p'' =>
            have hb : b = a ∧ p'' ++ (pat ++ s) = t := by
              simpa using hdec
            have : splitOnce pat t = some (p'', s) := by
              refine (ih).mpr ⟨hb.2, ?_⟩
              intro q hq
              have := hmin (q + 1) (by simpa using Nat.succ_lt_succ hq)
              simpa using this
            rw [hrec] at this
            exact absurd this (by simp)
      · simp only [splitOnce, hpre, Bool.false_eq_true, if_false, hrec,
          Option.some.injEq, Prod.mk.injEq]
        constructor
        · rintro ⟨hp, hs⟩
          obtain ⟨hdec', hmin'⟩ := (ih).mp hrec
          subst hp hs
          constructor
          · simpa using hdec'
          · intro q hq
            cases q with
            | zero => simpa using hnotp
            | succ q' =>
              simp only [List.length_cons, Nat.succ_lt_succ_iff] at hq
              simpa using hmin' q' hq
        · rintro ⟨hdec, hmin⟩
          cases p with
          | nil =>
            simp only [List.nil_append] at hdec
            exact absurd ⟨s, hdec⟩ hnotp
          | cons b p'' =>
            have hb : b = a ∧ p'' ++ (pat ++ s) = t := by simpa using hdec
            have hmint : ∀ q, q < p''.length → ¬ pat <+: t.drop q := by
              intro q hq
              have := hmin (q + 1) (by simpa using Nat.succ_lt_succ hq)
              simpa using this
            have : splitOnce pat t = some (p'', s) := (ih).mpr ⟨hb.2, hmint⟩
            rw [hrec] at this
            have hps : p'' = p' ∧ s = s' := by simpa using this.symm
            exact ⟨by rw [hb.1, hps.1], hps.2.symm⟩

theorem splitOnce_isSome_of_decomp {pat : List Char} :
    ∀ (p : List Char) {s hay : List Char}, p ++ (pat ++ s) = hay →
      (splitOnce pat hay).isSome = true := by
  intro p
  induction p with
  | nil =>
    intro s hay hdec
    simp only [List.nil_append] at hdec
    cases hay with
    | nil =>
      rcases List.append_eq_nil.mp hdec with ⟨h1, -⟩
      subst h1
      simp [splitOnce]
    | cons a t =>
      have hpre : pat.isPrefixOf (a :: t) = true :=
        List.isPrefixOf_iff_prefix.mpr ⟨s, hdec⟩
      simp [splitOnce, hpre]
  | cons b p' ih =>
    intro s hay hdec
    cases hay with
    | nil => exact absurd hdec (by simp)
    | cons a t =>
      have hb : b = a ∧ p' ++ (pat ++ s) = t := by simpa using hdec
      by_cases hpre : pat.isPrefixOf (a :: t)
      · simp [splitOnce, hpre]
      · have := ih hb.2
        simp only [splitOnce, hpre, Bool.false_eq_true, if_false]
        rcases hrec : splitOnce pat t with - | ⟨p'', s''⟩
        · rw [hrec] at this; exact absurd this (by simp)
        · simp

theorem hasSubstr_iff_decomp {hay pat : List Char} (hpat : pat ≠ []) :
    hasSubstr hay pat = true ↔ ∃ p s, p ++ (pat ++ s) = hay := by
  constructor
  · intro h
    obtain ⟨⟨p, s⟩, hsp⟩ := Option.isSome_iff_exists.mp h
    exact ⟨p, s, ((splitOnce_eq_some_iff hpat).mp hsp).1⟩
  · rintro ⟨p, s, hdec⟩
    exact splitOnce_isSome_of_decomp p hdec

/-- An occurrence inside an infix is an occurrence in the whole string. -/
theorem hasSubstr_infix {m pat : List Char} (hpat : pat ≠ []) (x y : List Char)
    (h : hasSubstr m pat = true) : hasSubstr (x ++ m ++ y) pat = true := by
  obtain ⟨p, s, hdec⟩ := (hasSubstr_iff_decomp hpat).mp h
  refine (hasSubstr_iff_decomp hpat).mpr ⟨x ++ p, s ++ y, ?_⟩
  rw [← hdec]
  simp [List.append_assoc]

theorem hasSubstr_false_infix {m pat : List Char} (hpat : pat ≠ [])
    (x y : List Char) (h : hasSubstr (x ++ m ++ y) pat = false) :
    hasSubstr m pat = false := by
  cases hb : hasSubstr m pat with
  | false => rfl
  | true =>
    exfalso
    have := hasSubstr_infix hpat x y hb
    rw [h] at this
    exact absurd this (by simp)

theorem splitOnce_eq_none_iff {hay pat : List Char} :
    splitOnce pat hay = none ↔ hasSubstr hay pat = false := by
  unfold hasSubstr
  rcases h : splitOnce pat hay with - | p <;> simp [h]

/-- A prefix of the left part of an append that fits inside it. -/
theorem prefix_of_append_of_le {pat u v : List Char} (h : pat <+: u ++ v)
    (hle : pat.length ≤ u.length) : pat <+: u := by
  rw [List.prefix_iff_eq_take] at h ⊢
  rwa [List.take_append_of_le_length hle] at h

/-- Appending on the right does not change the first occurrence. -/
theorem splitOnce_append_right {pat hay p s : List Char} (hpat : pat ≠ [])
    (r : List Char) (h : splitOnce pat hay = some (p, s)) :
    splitOnce pat (hay ++ r) = some (p, s ++ r) := by
  rw [splitOnce_eq_some_iff hpat] at h ⊢
  obtain ⟨hdec, hmin⟩ := h
  constructor
  · rw [← hdec]; simp [List.append_assoc]
  · intro q hq hqpre
    have hlen : q + pat.length ≤ hay.length := by
      have := congrArg List.length hdec
      simp only [List.length_append] at this
      omega
    have hqle : q ≤ hay.length := by omega
    rw [List.drop_append_of_le_length hqle] at hqpre
    exact hmin q hq (prefix_of_append_of_le hqpre (by simp; omega))

/-- If a prefix `cur` of the string already contains an occurrence, the
first occurrence of the whole string lies inside `cur` and the suffixes
are related by dropping `rest`. -/
theorem splitOnce_prefix_invert {pat cur rest pre suf : List Char}
    (hpat : pat ≠ []) (h : splitOnce pat (cur ++ rest) = some (pre, suf))
    (hsome : (splitOnce pat cur).isSome = true) :
    ∃ r, splitOnce pat cur = some (pre, r) ∧ suf = r ++ rest := by
  obtain ⟨⟨p', r'⟩, h'⟩ := Option.isSome_iff_exists.mp hsome
  have h2 := splitOnce_append_right hpat rest h'
  rw [h] at h2
  have hps : pre = p' ∧ suf = r' ++ rest := by simpa using h2
  exact ⟨r', by rw [h', hps.1], hps.2⟩

/-- Dropping a block that sits strictly before the first occurrence. -/
theorem splitOnce_drop_of_le {pat a t m post : List Char} (hpat : pat ≠ [])
    (h : splitOnce pat (a ++ t) = some (m, post)) (hle : a.length ≤ m.length) :
    splitOnce pat t = some (m.drop a.length, post) := by
  rw [splitOnce_eq_some_iff hpat] at h ⊢
  obtain ⟨hdec, hmin⟩ := h
  have ha : a = m.take a.length := by
    have h1 : (a ++ t).take a.length = a := List.take_left a t
    rw [← hdec, List.take_append_of_le_length hle] at h1
    exact h1.symm
  constructor
  · have h2 : (a ++ t).drop a.length = t := List.drop_left a t
    rw [← hdec, List.drop_append_of_le_length hle] at h2
    rw [← h2]
  · intro q hq hqpre
    have hq' : a.length + q < m.length := by
      simp only [List.length_drop] at hq
      omega
    refine hmin (a.length + q) hq' ?_
    rw [List.drop_append]
    exact hqpre

/-- The text before the first occurrence contains no occurrence. -/
theorem hasSubstr_false_of_first {pat hay p s : List Char} (hpat : pat ≠ [])
    (h : splitOnce pat hay = some (p, s)) : hasSubstr p pat = false := by
  rw [splitOnce_eq_some_iff hpat] at h
  obtain ⟨hdec, hmin⟩ := h
  cases hb : hasSubstr p pat with
  | false => rfl
  | true =>
  exfalso
  obtain ⟨x, y, hxy⟩ := (hasSubstr_iff_decomp hpat).mp hb
  have hxlt : x.length < p.length := by
    have := congrArg List.length hxy
    simp only [List.length_append] at this
    have hplen : 0 < pat.length := List.length_pos.mpr hpat
    omega
  refine hmin x.length hxlt ?_
  rw [← hdec, List.drop_append_of_le_length (Nat.le_of_lt hxlt), ← hxy,
    List.drop_left]
  exact (List.prefix_append pat y).trans (List.prefix_append _ _)

/-! ### Phase lemmas for the tag-extraction loop -/

theorem thinkOpen_ne_nil : thinkOpen ≠ [] := by decide

theorem thinkClose_ne_nil : thinkClose ≠ [] := by decide

theorem closeScan_none {R cur : List Char}
    (h : splitOnce thinkClose cur = none) :
    closeScan R cur = ⟨R ++ cur, [], true, false⟩ := by
  simp [closeScan, h]

theorem closeScan_some {R cur b a : List Char}
    (h : splitOnce thinkClose cur = some (b, a)) :
    closeScan R cur = ⟨R ++ b ++ thinkClose, cur, true, true⟩ := by
  simp [closeScan, h]

theorem processContent_awaiting_none {R buf c : List Char}
    (h : splitOnce thinkOpen (buf ++ c) = none) :
    processContent ⟨R, buf, false, false⟩ c = ⟨R, buf ++ c, false, false⟩ := by
  simp [processContent, h]

theorem processContent_awaiting_some {R buf c p r : List Char}
    (h : splitOnce thinkOpen (buf ++ c) = some (p, r)) :
    processContent ⟨R, buf, false, false⟩ c = closeScan (R ++ thinkOpen) r := by
  simp [processContent, h]

theorem processContent_started {R c : List Char} :
    processContent ⟨R, [], true, false⟩ c = closeScan R c := by
  simp [processContent]

/-- After the `break` (`done`), the loop reads no further fragment. -/
theorem foldl_processContent_done (cs : List (List Char)) :
    ∀ s : AccState, s.done = true → cs.foldl processContent s = s := by
  induction cs with
  | nil => intro s _; rfl
  | cons c cs ih =>
    intro s h
    have hstep : processContent s c = s := by simp [processContent, h]
    rw [List.foldl_cons, hstep]
    exact ih s h

/-- Awaiting phase, opening tag never completed: the loop only buffers. -/
theorem foldl_awaiting_noopen (cs : List (List Char)) :
    ∀ (buf R : List Char),
      hasSubstr (buf ++ cs.flatten) thinkOpen = false →
      cs.foldl processContent ⟨R, buf, false, false⟩
        = ⟨R, buf ++ cs.flatten, false, false⟩ := by
  induction cs with
  | nil => intro buf R _; simp
  | cons c cs ih =>
    intro buf R h
    have h' : hasSubstr ((buf ++ c) ++ cs.flatten) thinkOpen = false := by
      rw [List.append_assoc, ← List.flatten_cons]
      exact h
    have hnone : splitOnce thinkOpen (buf ++ c) = none := by
      rw [splitOnce_eq_none_iff]
      exact hasSubstr_false_infix thinkOpen_ne_nil [] cs.flatten (by simpa using h')
    rw [List.foldl_cons, processContent_awaiting_none hnone, ih (buf ++ c) R h']
    simp [List.append_assoc]

/-- Started phase, closing tag never occurring: every fragment is appended to
the reasoning text and the buffer stays empty. -/
theorem foldl_started_noclose (cs : List (List Char)) :
    ∀ (R : List Char),
      hasSubstr cs.flatten thinkClose = false →
      cs.foldl processContent ⟨R, [], true, false⟩
        = ⟨R ++ cs.flatten, [], true, false⟩ := by
  induction cs with
  | nil => intro R _; simp
  | cons c cs ih =>
    intro R h
    have hc : hasSubstr c thinkClose = false := by
      refine hasSubstr_false_infix thinkClose_ne_nil [] cs.flatten ?_
      simpa using h
    have hrest : hasSubstr cs.flatten thinkClose = false := by
      refine hasSubstr_false_infix thinkClose_ne_nil c [] ?_
      simpa using h
    have hnone : splitOnce thinkClose c = none := splitOnce_eq_none_iff.mpr hc
    rw [List.foldl_cons, processContent_started, closeScan_none hnone,
      ih (R ++ c) hrest]
    simp [List.append_assoc]

/-- Awaiting phase, opening tag found but closing tag never occurring after
it: the returned text is the opening tag plus everything after it, and the
break path is never taken. -/
theorem foldl_awaiting_noclose (cs : List (List Char)) :
    ∀ (buf R pre suf : List Char),
      hasSubstr buf thinkOpen = false →
      splitOnce thinkOpen (buf ++ cs.flatten) = some (pre, suf) →
      hasSubstr suf thinkClose = false →
      cs.foldl processContent ⟨R, buf, false, false⟩
        = ⟨R ++ thinkOpen ++ suf, [], true, false⟩ := by
  induction cs with
  | nil =>
    intro buf R pre suf hbuf hsplit _
    exfalso
    simp only [List.flatten_nil, List.append_nil] at hsplit
    have : hasSubstr buf thinkOpen = true := by
      unfold hasSubstr
      rw [hsplit]
      rfl
    rw [hbuf] at this
    exact absurd this (by simp)
  | cons c cs ih =>
    intro buf R pre suf hbuf hsplit hsuf
    rw [List.flatten_cons, ← List.append_assoc] at hsplit
    rcases hstep : splitOnce thinkOpen (buf ++ c) with - | ⟨p, r⟩
    · rw [List.foldl_cons, processContent_awaiting_none hstep]
      exact ih (buf ++ c) R pre suf (splitOnce_eq_none_iff.mp hstep) hsplit hsuf
    · obtain ⟨r', hr1, hr2⟩ := splitOnce_prefix_invert thinkOpen_ne_nil hsplit
        (by rw [hstep]; rfl)
      rw [hr2] at hsuf
      have hrclose : hasSubstr r' thinkClose = false :=
        hasSubstr_false_infix thinkClose_ne_nil [] cs.flatten (by simpa using hsuf)
      have hrest : hasSubstr cs.flatten thinkClose = false :=
        hasSubstr_false_infix thinkClose_ne_nil r' [] (by simpa using hsuf)
      rw [List.foldl_cons, processContent_awaiting_some hr1,
        closeScan_none (splitOnce_eq_none_iff.mpr hrclose),
        foldl_started_noclose cs (R ++ thinkOpen ++ r') hrest, hr2]
      simp [List.append_assoc]

/-- If an occurrence of `pat` fits inside the prefix `c` of `c ++ rest`,
then `pat` occurs in `c`. -/
theorem splitOnce_isSome_of_inner {pat m post c rest : List Char}
    (hdec : m ++ (pat ++ post) = c ++ rest)
    (hle : m.length + pat.length ≤ c.length) :
    (splitOnce pat c).isSome = true := by
  have h1 : (m ++ (pat ++ post)).take c.length = c := by
    rw [hdec]
    exact List.take_left c rest
  rw [List.take_append_eq_append_take,
    List.take_of_length_le (show m.length ≤ c.length by omega),
    List.take_append_eq_append_take,
    List.take_of_length_le (show pat.length ≤ c.length - m.length by omega)] at h1
  exact splitOnce_isSome_of_decomp m h1

/-- A block `a` sitting at the start of a decomposition `m ++ post = a ++ t`
with `a` no longer than `m` satisfies `a ++ m.drop a.length = m`. -/
theorem append_drop_of_decomp {m post a t : List Char}
    (hdec : m ++ post = a ++ t) (hle : a.length ≤ m.length) :
    a ++ m.drop a.length = m := by
  have h2 : (m ++ post).take a.length = a := by
    rw [hdec]
    exact List.take_left a t
  rw [List.take_append_of_le_length hle] at h2
  calc a ++ m.drop a.length
      = m.take a.length ++ m.drop a.length := by rw [h2]
    _ = m := List.take_append_drop _ _

/-- Started phase, success: if the closing tag sits inside the single chunk
`c` (no chunk boundary splits it), the loop emits exactly the text up to and
including the closing tag and takes the break path. -/
theorem foldl_started_close (as : List (List Char)) :
    ∀ (c : List Char) (bs : List (List Char)) (R m post : List Char),
      splitOnce thinkClose ((as ++ c :: bs).flatten) = some (m, post) →
      as.flatten.length ≤ m.length →
      m.length + thinkClose.length ≤ as.flatten.length + c.length →
      ((as ++ c :: bs).foldl processContent ⟨R, [], true, false⟩).reasoning
          = R ++ m ++ thinkClose ∧
        ((as ++ c :: bs).foldl processContent ⟨R, [], true, false⟩).done = true := by
  induction as with
  | nil =>
    intro c bs R m post hsplit _hle1 hle2
    simp only [List.nil_append, List.flatten_cons] at hsplit
    simp only [List.flatten_nil, List.length_nil] at hle2
    have hdec := ((splitOnce_eq_some_iff thinkClose_ne_nil).mp hsplit).1
    have hsome : (splitOnce thinkClose c).isSome = true :=
      splitOnce_isSome_of_inner hdec (by omega)
    obtain ⟨r', hr1, -⟩ := splitOnce_prefix_invert thinkClose_ne_nil hsplit hsome
    rw [List.nil_append, List.foldl_cons, processContent_started,
      closeScan_some hr1, foldl_processContent_done bs _ rfl]
    exact ⟨rfl, rfl⟩
  | cons a as ih =>
    intro c bs R m post hsplit hle1 hle2
    simp only [List.cons_append, List.flatten_cons] at hsplit
    simp only [List.flatten_cons, List.length_append] at hle1 hle2
    have hdec := ((splitOnce_eq_some_iff thinkClose_ne_nil).mp hsplit).1
    have hale : a.length ≤ m.length := by omega
    have ha2 : a ++ m.drop a.length = m := append_drop_of_decomp hdec hale
    have hmfalse : hasSubstr m thinkClose = false :=
      hasSubstr_false_of_first thinkClose_ne_nil hsplit
    have hafalse : hasSubstr a thinkClose = false := by
      refine hasSubstr_false_infix thinkClose_ne_nil [] (m.drop a.length) ?_
      simp only [List.nil_append]
      rw [ha2]
      exact hmfalse
    have hnone : splitOnce thinkClose a = none := splitOnce_eq_none_iff.mpr hafalse
    have hdrop : splitOnce thinkClose ((as ++ c :: bs).flatten)
        = some (m.drop a.length, post) :=
      splitOnce_drop_of_le thinkClose_ne_nil hsplit hale
    have hlen1 : as.flatten.length ≤ (m.drop a.length).length := by
      simp only [List.length_drop]
      omega
    have hlen2 : (m.drop a.length).length + thinkClose.length
        ≤ as.flatten.length + c.length := by
      simp only [List.length_drop]
      omega
    rw [List.cons_append, List.foldl_cons, processContent_started,
      closeScan_none hnone]
    obtain ⟨hreas, hdone⟩ := ih c bs (R ++ a) (m.drop a.length) post hdrop hlen1 hlen2
    refine ⟨?_, hdone⟩
    rw [hreas]
    conv_rhs => rw [← ha2]
    simp [List.append_assoc]

/-- Awaiting phase, success: the opening tag may be split arbitrarily across
chunk boundaries; provided the closing tag lies within the single chunk `c`,
the loop emits the span `thinkOpen ++ mid ++ thinkClose` verbatim and takes
the break path.  `pre`/`mid`/`post` are the text before the span, inside it,
and after it; the two `splitOnce` hypotheses say the span is delimited by the
first occurrences of the two tags. -/
theorem foldl_awaiting_close (as : List (List Char)) :
    ∀ (c : List Char) (bs : List (List Char)) (buf R pre mid post : List Char),
      splitOnce thinkOpen (buf ++ (as ++ c :: bs).flatten)
          = some (pre, mid ++ (thinkClose ++ post)) →
      splitOnce thinkClose (mid ++ (thinkClose ++ post)) = some (mid, post) →
      buf.length + as.flatten.length
          ≤ pre.length + thinkOpen.length + mid.length →
      pre.length + thinkOpen.length + mid.length + thinkClose.length
          ≤ buf.length + as.flatten.length + c.length →
      ((as ++ c :: bs).foldl processContent ⟨R, buf, false, false⟩).reasoning
          = R ++ thinkOpen ++ mid ++ thinkClose ∧
        ((as ++ c :: bs).foldl processContent ⟨R, buf, false, false⟩).done
          = true := by
  induction as with
  | nil =>
    intro c bs buf R pre mid post hsplit hclose hle1 hle2
    simp only [List.nil_append, List.flatten_cons] at hsplit
    rw [← List.append_assoc] at hsplit
    simp only [List.flatten_nil, List.length_nil, Nat.add_zero] at hle1 hle2
    have hdec := ((splitOnce_eq_some_iff thinkOpen_ne_nil).mp hsplit).1
    have hsomeo : (splitOnce thinkOpen (buf ++ c)).isSome = true :=
      splitOnce_isSome_of_inner hdec (by simp only [List.length_append]; omega)
    obtain ⟨r, hro1, hro2⟩ :=
      splitOnce_prefix_invert thinkOpen_ne_nil hsplit hsomeo
    have hdec2 := ((splitOnce_eq_some_iff thinkOpen_ne_nil).mp hro1).1
    have hrlen : pre.length + (thinkOpen.length + r.length)
        = buf.length + c.length := by
      have := congrArg List.length hdec2
      simpa using this
    rw [hro2] at hclose
    have hsomec : (splitOnce thinkClose r).isSome = true := by
      refine splitOnce_isSome_of_inner
        (((splitOnce_eq_some_iff thinkClose_ne_nil).mp hclose).1) ?_
      omega
    obtain ⟨r2, hrc1, -⟩ :=
      splitOnce_prefix_invert thinkClose_ne_nil hclose hsomec
    rw [List.nil_append, List.foldl_cons, processContent_awaiting_some hro1,
      closeScan_some hrc1, foldl_processContent_done bs _ rfl]
    exact ⟨rfl, rfl⟩
  | cons a as ih =>
    intro c bs buf R pre mid post hsplit hclose hle1 hle2
    simp only [List.cons_append, List.flatten_cons] at hsplit
    rw [← List.append_assoc] at hsplit
    simp only [List.flatten_cons, List.length_append] at hle1 hle2
    rcases hstep : splitOnce thinkOpen (buf ++ a) with - | ⟨p, r⟩
    · rw [List.cons_append, List.foldl_cons, processContent_awaiting_none hstep]
      exact ih c bs (buf ++ a) R pre mid post hsplit hclose
        (by simp only [List.length_append]; omega)
        (by simp only [List.length_append]; omega)
    · obtain ⟨r, hro1, hro2⟩ := splitOnce_prefix_invert thinkOpen_ne_nil hsplit
        (by rw [hstep]; rfl)
      have hdec2 := ((splitOnce_eq_some_iff thinkOpen_ne_nil).mp hro1).1
      have hrlen : pre.length + (thinkOpen.length + r.length)
          = buf.length + a.length := by
        have := congrArg List.length hdec2
        simpa using this
      have hrle : r.length ≤ mid.length := by omega
      rw [hro2] at hclose
      have hmid : r ++ mid.drop r.length = mid := append_drop_of_decomp hro2 hrle
      have hmidfalse : hasSubstr mid thinkClose = false :=
        hasSubstr_false_of_first thinkClose_ne_nil hclose
      have hrfalse : hasSubstr r thinkClose = false := by
        refine hasSubstr_false_infix thinkClose_ne_nil [] (mid.drop r.length) ?_
        simp only [List.nil_append]
        rw [hmid]
        exact hmidfalse
      have hdropclose : splitOnce thinkClose ((as ++ c :: bs).flatten)
          = some (mid.drop r.length, post) :=
        splitOnce_drop_of_le thinkClose_ne_nil hclose hrle
      have hL1 : as.flatten.length ≤ (mid.drop r.length).length := by
        simp only [List.length_drop]
        omega
      have hL2 : (mid.drop r.length).length + thinkClose.length
          ≤ as.flatten.length + c.length := by
        simp only [List.length_drop]
        omega
      rw [List.cons_append, List.foldl_cons, processContent_awaiting_some hro1,
        closeScan_none (splitOnce_eq_none_iff.mpr hrfalse)]
      obtain ⟨hreas, hdone⟩ :=
        foldl_started_close as c bs (R ++ thinkOpen ++ r) (mid.drop r.length)
          post hdropclose hL1 hL2
      refine ⟨?_, hdone⟩
      rw [hreas]
      conv_rhs => rw [← hmid]
      simp [List.append_assoc]

/-! ### Claim theorems -/

/-- C4: for every chunk sequence whose concatenation never contains the
closing delimiter after an opening tag was found (or never contains the
opening tag at all), when the input ends the accumulator returns exactly the
text collected so far — the empty string, or the literal opening tag plus
everything after its first occurrence — with no closing delimiter appended,
and completion is signaled false (the break/close path is never taken).  The
outcome is an ordinary return value of the total step function, not an
error. -/
theorem c4_missing_close_returns_collected (cs : List (List Char)) :
    (hasSubstr cs.flatten thinkOpen = false →
      (runAcc cs).reasoning = [] ∧ (runAcc cs).done = false) ∧
    (∀ pre suf, splitOnce thinkOpen cs.flatten = some (pre, suf) →
      hasSubstr suf thinkClose = false →
      (runAcc cs).reasoning = thinkOpen ++ suf ∧ (runAcc cs).done = false) := by
  constructor
  · intro h
    have hrun := foldl_awaiting_noopen cs [] [] (by simpa using h)
    rw [runAcc, hrun]
    exact ⟨rfl, rfl⟩
  · intro pre suf hsplit hsuf
    have hbuf : hasSubstr ([] : List Char) thinkOpen = false := by decide
    have hrun := foldl_awaiting_noclose cs [] [] pre suf hbuf
      (by simpa using hsplit) hsuf
    rw [runAcc, hrun]
    exact ⟨by simp, rfl⟩

/-- Witness for C4 at the two concrete inputs of the spec examples. -/
theorem c4_missing_close_witness :
    ((runAcc ["hello".toList, "world".toList]).reasoning = []
        ∧ (runAcc ["hello".toList, "world".toList]).done = false) ∧
      ((runAcc ["<think>".toList, "no closing".toList]).reasoning
          = thinkOpen ++ "no closing".toList
        ∧ (runAcc ["<think>".toList, "no closing".toList]).done = false) :=
  ⟨(c4_missing_close_returns_collected ["hello".toList, "world".toList]).1
      (by decide),
    (c4_missing_close_returns_collected ["<think>".toList, "no closing".toList]).2
      [] "no closing".toList (by decide) (by decide)⟩

/-- C7: a line that fails JSON decoding is skipped, contributes nothing, and
the processing of all subsequent lines is exactly as if the line were absent
— both in the reasoning-stream loop (lines 175-176) and in the local
response loop (lines 265-266); the stream is never aborted. -/
theorem c7_decode_fault_isolation (s : AccState) (acc : List Char)
    (xs ys : List OllamaLine) :
    (xs ++ OllamaLine.badJson :: ys).foldl processLine s
        = (xs ++ ys).foldl processLine s ∧
      (xs ++ OllamaLine.badJson :: ys).foldl respLineStep acc
        = (xs ++ ys).foldl respLineStep acc := by
  constructor
  · rw [List.foldl_append, List.foldl_append, List.foldl_cons]
    rfl
  · rw [List.foldl_append, List.foldl_append, List.foldl_cons]
    rfl

/-- C8: the elapsed-time label uses minutes (value divided by 60, one
decimal) at or above 60 seconds and seconds (one decimal) below, with the
spec instances 45.0 s and 125.0 s. -/
theorem c8_elapsed_time_label (t : ℚ) (_ht : 0 ≤ t) :
    (60 ≤ t → time_str t = fmt1 (t / 60) ++ " minutes".toList) ∧
    (t < 60 → time_str t = fmt1 t ++ " seconds".toList) ∧
    time_str 45 = "45.0 seconds".toList ∧
    time_str 125 = "2.1 minutes".toList := by
  refine ⟨?_, ?_, ?_, ?_⟩
  · intro h
    rw [time_str, if_pos h]
  · intro h
    rw [time_str, if_neg (not_le.mpr h)]
  · have h : roundHalfEven ((450 : ℚ)) = 450 := by unfold roundHalfEven; norm_num
    rw [time_str, if_neg (by norm_num), fmt1]
    norm_num
    rw [h]
    decide
  · have h : roundHalfEven ((125 : ℚ) / 6) = 21 := by unfold roundHalfEven; norm_num
    rw [time_str, if_pos (by norm_num), fmt1]
    norm_num
    rw [h]
    decide

/-- Witness for C8 at the concrete duration 125.0 s. -/
theorem c8_elapsed_time_label_witness :
    (0 : ℚ) ≤ 125 ∧ time_str 125 = "2.1 minutes".toList :=
  ⟨by norm_num, (c8_elapsed_time_label 125 (by norm_num)).2.2.2⟩

/-- C1 (amended): boundary-invariance of tag extraction holds whenever the
closing delimiter lies entirely within one chunk.  For every chunk sequence
`as ++ c :: bs` whose concatenation contains exactly one well-formed
`<think>...</think>` span (first opening tag at `pre`, first closing tag
after it delimits `mid`), if the closing delimiter sits inside the single
chunk `c` — the two length inequalities — then the accumulated reasoning
equals the span verbatim, both literal tags included, and completion is
signaled (the break/close path is taken), however the opening tag and the
rest of the text are split across chunk boundaries. -/
theorem c1_tag_extraction_unsplit_close
    (as : List (List Char)) (c : List Char) (bs : List (List Char))
    (pre mid post : List Char)
    (hopen : splitOnce thinkOpen ((as ++ c :: bs).flatten)
        = some (pre, mid ++ (thinkClose ++ post)))
    (hclose : splitOnce thinkClose (mid ++ (thinkClose ++ post))
        = some (mid, post))
    (h1 : as.flatten.length ≤ pre.length + thinkOpen.length + mid.length)
    (h2 : pre.length + thinkOpen.length + mid.length + thinkClose.length
        ≤ as.flatten.length + c.length) :
    (runAcc (as ++ c :: bs)).reasoning = thinkOpen ++ mid ++ thinkClose ∧
      (runAcc (as ++ c :: bs)).done = true := by
  have hres := foldl_awaiting_close as c bs [] [] pre mid post
    (by simpa using hopen) hclose (by simpa using h1) (by simpa using h2)
  rw [runAcc]
  refine ⟨?_, hres.2⟩
  rw [hres.1]
  simp

/-- Witness for C1 (amended) at the spec's example fragments, with the
closing tag delivered in a chunk of its own. -/
theorem c1_tag_extraction_unsplit_close_witness :
    (runAcc ["<th".toList, "ink>partial reasoning".toList, "</think>".toList]).reasoning
        = thinkOpen ++ "partial reasoning".toList ++ thinkClose ∧
      (runAcc ["<th".toList, "ink>partial reasoning".toList, "</think>".toList]).done
        = true :=
  c1_tag_extraction_unsplit_close
    ["<th".toList, "ink>partial reasoning".toList] "</think>".toList []
    [] "partial reasoning".toList []
    (by decide) (by decide) (by decide) (by decide)

/-- Counterexample to C1 as stated: the chunk sequence
`["<think>a</thi", "nk>tail"]` concatenates to `"<think>a</think>tail"`,
which contains exactly one well-formed span `"<think>a</think>"` (the
conjuncts give the two delimiting first occurrences and the absence of any
further tag), yet the accumulator returns `"<think>a</think>tail"` — not the
span — and never signals completion, because the closing delimiter is split
across the chunk boundary. -/
theorem c1_boundary_invariance_counterexample :
    (["<think>a</thi".toList, "nk>tail".toList] : List (List Char)).flatten
        = "<think>a</think>tail".toList ∧
      splitOnce thinkOpen "<think>a</think>tail".toList
        = some ([], "a</think>tail".toList) ∧
      splitOnce thinkClose "a</think>tail".toList
        = some ("a".toList, "tail".toList) ∧
      hasSubstr "a</think>tail".toList thinkOpen = false ∧
      hasSubstr "tail".toList thinkClose = false ∧
      (runAcc ["<think>a</thi".toList, "nk>tail".toList]).reasoning
        = "<think>a</think>tail".toList ∧
      (runAcc ["<think>a</thi".toList, "nk>tail".toList]).reasoning
        ≠ thinkOpen ++ "a".toList ++ thinkClose ∧
      (runAcc ["<think>a</thi".toList, "nk>tail".toList]).done = false := by
  decide

/-- C5: `set_model` coercion.  With no OpenRouter credential and a selector
lacking the `"ollama:"` prefix, the active selector becomes the local
default `OLLAMA_MODEL` and the warning is emitted; with the prefix, the
selector is kept as given and no warning is emitted. -/
theorem c5_set_model_coercion (s : Session) (model_name : List Char) :
    (s.hasOpenrouter = false →
      "ollama:".toList.isPrefixOf model_name = false →
      (set_model s model_name).1.currentModel = OLLAMA_MODEL ∧
        (set_model s model_name).2 = true) ∧
    ("ollama:".toList.isPrefixOf model_name = true →
      (set_model s model_name).1.currentModel = model_name ∧
        (set_model s model_name).2 = false) := by
  constructor
  · intro h1 h2
    rw [set_model, if_pos ⟨by rw [h1]; simp, by rw [h2]; simp⟩]
    exact ⟨rfl, rfl⟩
  · intro h
    rw [set_model, if_neg (fun hc => hc.2 h)]
    exact ⟨rfl, rfl⟩

/-- A fresh `ModelChain` in a pure-local configuration (no API keys): both
logs empty, default local model, reasoning shown, local DeepSeek override on
(lines 51-58 with both keys absent). -/
def sessionLocalFresh : Session :=
  ⟨[], [], [], OLLAMA_MODEL, true, true, false, false⟩

/-- Witness for C5 at the spec's two selector examples. -/
theorem c5_set_model_coercion_witness :
    (sessionLocalFresh.hasOpenrouter = false ∧
      "ollama:".toList.isPrefixOf "gpt-x".toList = false ∧
      (set_model sessionLocalFresh "gpt-x".toList).1.currentModel = OLLAMA_MODEL ∧
      (set_model sessionLocalFresh "gpt-x".toList).2 = true) ∧
    ("ollama:".toList.isPrefixOf "ollama:llama3.2".toList = true ∧
      (set_model sessionLocalFresh "ollama:llama3.2".toList).1.currentModel
          = "ollama:llama3.2".toList ∧
      (set_model sessionLocalFresh "ollama:llama3.2".toList).2 = false) :=
  ⟨⟨rfl, by decide,
      (c5_set_model_coercion sessionLocalFresh "gpt-x".toList).1 rfl (by decide)⟩,
    ⟨by decide,
      (c5_set_model_coercion sessionLocalFresh "ollama:llama3.2".toList).2
        (by decide)⟩⟩

/-- C3 (amended): a transport fault inside either response strategy is not
propagated — the call returns the fixed sentinel and the turn completes —
but the sentinel is NOT appended to any message log: the hosted path keeps
only the combined-prompt user append made before the fault (line 199), and
the local path leaves the session unchanged, because the early `return`
(lines 224, 270) skips the assistant appends (lines 226-227, 272-273). -/
theorem c3_transport_fault_sentinel (s : Session) (user_input reasoning : List Char) :
    get_openrouter_response s user_input reasoning (Except.error ())
        = ({ s with openrouterMessages := s.openrouterMessages
              ++ [⟨Role.user, combinedPrompt user_input reasoning⟩] },
          errorSentinel) ∧
    get_ollama_response s user_input reasoning (Except.error ())
        = (s, errorSentinel) := by
  exact ⟨rfl, rfl⟩

/-- Counterexample to C3 as stated: on a transport fault from a fresh
session, both response strategies do return the sentinel, yet afterwards no
message of any of the three logs has the sentinel as content — the sentinel
never becomes part of the message history. -/
theorem c3_sentinel_not_in_history_counterexample :
    (get_openrouter_response sessionLocalFresh "q".toList "r".toList
        (Except.error ())).2 = errorSentinel ∧
    ((get_openrouter_response sessionLocalFresh "q".toList "r".toList
          (Except.error ())).1.deepseekMessages
        ++ (get_openrouter_response sessionLocalFresh "q".toList "r".toList
          (Except.error ())).1.openrouterMessages
        ++ (get_openrouter_response sessionLocalFresh "q".toList "r".toList
          (Except.error ())).1.ollamaMessages).all
        (fun msg => msg.content != errorSentinel) = true ∧
    (get_ollama_response sessionLocalFresh "q".toList "r".toList
        (Except.error ())).2 = errorSentinel ∧
    ((get_ollama_response sessionLocalFresh "q".toList "r".toList
          (Except.error ())).1.deepseekMessages
        ++ (get_ollama_response sessionLocalFresh "q".toList "r".toList
          (Except.error ())).1.openrouterMessages
        ++ (get_ollama_response sessionLocalFresh "q".toList "r".toList
          (Except.error ())).1.ollamaMessages).all
        (fun msg => msg.content != errorSentinel) = true := by
  decide

/-- C6: dual append.  On a successfully completed response call, the
assembled full response is appended as an assistant message exactly once to
the reasoning-backend log `deepseek_messages` and exactly once to the log of
the backend that produced the response (`openrouter_messages`, which also
received the combined prompt before the call, or `ollama_messages`). -/
theorem c6_dual_append (s : Session) (user_input reasoning : List Char)
    (cs : List ORChunk) (ls : List OllamaLine) :
    get_openrouter_response s user_input reasoning (Except.ok cs)
        = ({ s with
            deepseekMessages := s.deepseekMessages
              ++ [⟨Role.assistant, cs.foldl orStep []⟩],
            openrouterMessages := s.openrouterMessages
              ++ [⟨Role.user, combinedPrompt user_input reasoning⟩,
                  ⟨Role.assistant, cs.foldl orStep []⟩] },
          cs.foldl orStep []) ∧
    get_ollama_response s user_input reasoning (Except.ok ls)
        = ({ s with
            deepseekMessages := s.deepseekMessages
              ++ [⟨Role.assistant, ls.foldl respLineStep []⟩],
            ollamaMessages := s.ollamaMessages
              ++ [⟨Role.assistant, ls.foldl respLineStep []⟩] },
          ls.foldl respLineStep []) := by
  constructor
  · simp [get_openrouter_response]
  · rfl

/-- The transports of the spec's end-to-end scenario: the local reasoning
stream delivers `<think>because Y</think>` and the local response stream
delivers `X is Y`. -/
def turnStreamsScenario : TurnStreams :=
  ⟨[], Except.ok [OllamaLine.msg "<think>because Y</think>".toList],
    Except.ok [], Except.ok [OllamaLine.msg "X is Y".toList]⟩

/-- Counterexample to C2 as stated: in the spec's end-to-end scenario run in
the pure-local configuration, after the full turn the logs hold only the
assistant response — no log of the session contains any user-role message,
so in particular the reasoning-backend log does not contain the user
message.  (The local reasoning path builds its request message list fresh at
lines 124-127 and never appends to a session log.) -/
theorem c2_user_message_counterexample :
    (run_turn sessionLocalFresh "explain X".toList turnStreamsScenario).1.deepseekMessages
        = [⟨Role.assistant, "X is Y".toList⟩] ∧
    (run_turn sessionLocalFresh "explain X".toList turnStreamsScenario).1.ollamaMessages
        = [⟨Role.assistant, "X is Y".toList⟩] ∧
    (run_turn sessionLocalFresh "explain X".toList turnStreamsScenario).1.openrouterMessages
        = [] ∧
    (run_turn sessionLocalFresh "explain X".toList turnStreamsScenario).2
        = "X is Y".toList ∧
    ((run_turn sessionLocalFresh "explain X".toList turnStreamsScenario).1.deepseekMessages
        ++ (run_turn sessionLocalFresh "explain X".toList turnStreamsScenario).1.openrouterMessages
        ++ (run_turn sessionLocalFresh "explain X".toList turnStreamsScenario).1.ollamaMessages).all
        (fun msg => msg.role != Role.user) = true := by
  decide

/-- C2 (amended): only the hosted reasoning path appends the user text as a
user message to the reasoning-backend log (`deepseek_messages`, line 82).
The local reasoning path mutates no session log at all; there the user text
is only embedded, wrapped in the fixed analysis template, as the user-role
entry of the per-call request message list of lines 124-127. -/
theorem c2_user_message_append (s : Session) (user_input : List Char)
    (ds : List (List Char × List Char)) (tr : Except Unit (List OllamaLine)) :
    (get_official_deepseek_reasoning s user_input ds).1.deepseekMessages
        = s.deepseekMessages ++ [⟨Role.user, user_input⟩] ∧
    (get_ollama_deepseek_reasoning s user_input tr).1 = s ∧
    (⟨Role.user, "Analyze this request step by step:\n".toList ++ user_input⟩
        : Message) ∈ ollamaReasoningMessages user_input := by
  refine ⟨rfl, ?_, ?_⟩
  · cases tr <;> rfl
  · simp [ollamaReasoningMessages]


/-- The reasoning step appends a fixed delta (empty for the local path, the
user message for the hosted path) to `deepseek_messages` and returns a
reasoning value, both independent of the current log contents. -/
theorem get_deepseek_reasoning_logs (s : Session) (u : List Char)
    (t : TurnStreams) :
    ∃ dd rsn,
      ∀ s' : Session,
        s'.hasOfficialDeepseek = s.hasOfficialDeepseek →
        s'.useOllamaDeepseek = s.useOllamaDeepseek →
        (get_deepseek_reasoning s' u t).1
            = { s' with deepseekMessages := s'.deepseekMessages ++ dd }
          ∧ (get_deepseek_reasoning s' u t).2 = rsn := by
  by_cases h1 : (¬ s.hasOfficialDeepseek ∨ s.useOllamaDeepseek)
  · refine ⟨[], (get_ollama_deepseek_reasoning s u t.ollamaReason).2, ?_⟩
    intro s' hof hud
    rw [get_deepseek_reasoning, if_pos (by rw [hof, hud]; exact h1)]
    rcases t with ⟨ds, tr, orr, olr⟩
    rcases tr with e | ls <;>
      exact ⟨by simp [get_ollama_deepseek_reasoning], rfl⟩
  · refine ⟨[⟨Role.user, u⟩], (officialRun t.official).1, ?_⟩
    intro s' hof hud
    rw [get_deepseek_reasoning, if_neg (by rw [hof, hud]; exact h1)]
    exact ⟨rfl, rfl⟩

/-- The response step appends fixed deltas (depending only on the input, the
reasoning text, the transports and the configuration fields) to the three
logs, independent of the current log contents. -/
theorem get_response_logs (s : Session) (u r : List Char) (t : TurnStreams) :
    ∃ d1 d2 d3,
      ∀ s' : Session,
        s'.currentModel = s.currentModel →
        s'.hasOpenrouter = s.hasOpenrouter →
        (get_response s' u r t).1.deepseekMessages
            = s'.deepseekMessages ++ d1 ∧
          (get_response s' u r t).1.openrouterMessages
            = s'.openrouterMessages ++ d2 ∧
          (get_response s' u r t).1.ollamaMessages
            = s'.ollamaMessages ++ d3 := by
  by_cases h2 : (¬ s.hasOpenrouter ∨ "ollama:".toList.isPrefixOf s.currentModel)
  · rcases holr : t.ollamaResp with e | ls
    · refine ⟨[], [], [], ?_⟩
      intro s' hcm hho
      rw [get_response, if_pos (by rw [hcm, hho]; exact h2), holr]
      exact ⟨by simp [get_ollama_response], by simp [get_ollama_response],
        by simp [get_ollama_response]⟩
    · refine ⟨[⟨Role.assistant, ls.foldl respLineStep []⟩], [],
        [⟨Role.assistant, ls.foldl respLineStep []⟩], ?_⟩
      intro s' hcm hho
      rw [get_response, if_pos (by rw [hcm, hho]; exact h2), holr]
      exact ⟨rfl, by simp [get_ollama_response], rfl⟩
  · rcases horr : t.openrouterResp with e | cs
    · refine ⟨[], [⟨Role.user, combinedPrompt u r⟩], [], ?_⟩
      intro s' hcm hho
      rw [get_response, if_neg (by rw [hcm, hho]; exact h2), horr]
      exact ⟨by simp [get_openrouter_response], rfl,
        by simp [get_openrouter_response]⟩
    · refine ⟨[⟨Role.assistant, cs.foldl orStep []⟩],
        [⟨Role.user, combinedPrompt u r⟩,
          ⟨Role.assistant, cs.foldl orStep []⟩], [], ?_⟩
      intro s' hcm hho
      rw [get_response, if_neg (by rw [hcm, hho]; exact h2), horr]
      refine ⟨rfl, ?_, by simp [get_openrouter_response]⟩
      simp [get_openrouter_response]

/-- C9: the `clear` command empties all three message logs and changes no
other session state (selector, visibility flag, local-override flag); and a
subsequent turn contains no residue from before the clear: the logs a turn
appends on top of any session equal exactly the logs the same turn produces
from the cleared session. -/
theorem c9_clear_history (s : Session) (u : List Char) (t : TurnStreams) :
    (clear_history s).deepseekMessages = [] ∧
    (clear_history s).openrouterMessages = [] ∧
    (clear_history s).ollamaMessages = [] ∧
    (clear_history s).currentModel = s.currentModel ∧
    (clear_history s).showReasoning = s.showReasoning ∧
    (clear_history s).useOllamaDeepseek = s.useOllamaDeepseek ∧
    (run_turn s u t).1.deepseekMessages
        = s.deepseekMessages
          ++ (run_turn (clear_history s) u t).1.deepseekMessages ∧
    (run_turn s u t).1.openrouterMessages
        = s.openrouterMessages
          ++ (run_turn (clear_history s) u t).1.openrouterMessages ∧
    (run_turn s u t).1.ollamaMessages
        = s.ollamaMessages
          ++ (run_turn (clear_history s) u t).1.ollamaMessages := by
  obtain ⟨dd, rsn, hR⟩ := get_deepseek_reasoning_logs s u t
  obtain ⟨hR1, hR2⟩ := hR s rfl rfl
  obtain ⟨hRc1, hRc2⟩ := hR (clear_history s) rfl rfl
  obtain ⟨d1, d2, d3, hP⟩ := get_response_logs s u rsn t
  have hs1 : (get_deepseek_reasoning s u t).1.currentModel = s.currentModel := by
    rw [hR1]
  have hs2 : (get_deepseek_reasoning s u t).1.hasOpenrouter = s.hasOpenrouter := by
    rw [hR1]
  have hc1 : (get_deepseek_reasoning (clear_history s) u t).1.currentModel
      = s.currentModel := by rw [hRc1]; rfl
  have hc2 : (get_deepseek_reasoning (clear_history s) u t).1.hasOpenrouter
      = s.hasOpenrouter := by rw [hRc1]; rfl
  obtain ⟨hA1, hA2, hA3⟩ := hP (get_deepseek_reasoning s u t).1 hs1 hs2
  obtain ⟨hB1, hB2, hB3⟩ := hP (get_deepseek_reasoning (clear_history s) u t).1 hc1 hc2
  refine ⟨rfl, rfl, rfl, rfl, rfl, rfl, ?_, ?_, ?_⟩
  · rw [run_turn, run_turn, hR2, hRc2, hA1, hB1, hR1, hRc1]
    simp [clear_history, List.append_assoc]
  · rw [run_turn, run_turn, hR2, hRc2, hA2, hB2, hR1, hRc1]
    simp [clear_history, List.append_assoc]
  · rw [run_turn, run_turn, hR2, hRc2, hA3, hB3, hR1, hRc1]
    simp [clear_history, List.append_assoc]

theorem closeScanPrint_fst (show_ : Bool) (R cur printed : List Char) :
    (closeScanPrint show_ R cur printed).1 = closeScan R cur := by
  unfold closeScanPrint closeScan
  rcases h : splitOnce thinkClose cur with - | ⟨b, a⟩ <;> simp [h]

theorem processContentPrint_fst (show_ : Bool) (sp : AccState × List Char)
    (c : List Char) :
    (processContentPrint show_ sp c).1 = processContent sp.1 c := by
  rcases sp with ⟨st, pr⟩
  unfold processContentPrint processContent
  by_cases hd : st.done
  · simp [hd]
  · simp only [hd, Bool.false_eq_true, if_false]
    by_cases hs : st.started
    · simp [hs, closeScanPrint_fst]
    · simp only [hs, Bool.false_eq_true, if_false]
      rcases h : splitOnce thinkOpen (st.current ++ c) with - | ⟨p, r⟩ <;>
        simp [h, closeScanPrint_fst]

theorem processLinePrint_fst (show_ : Bool) (sp : AccState × List Char)
    (l : OllamaLine) :
    (processLinePrint show_ sp l).1 = processLine sp.1 l := by
  rcases l with - | - | - | c <;>
    simp [processLinePrint, processLine, decodeLine, processContentPrint_fst]

theorem foldl_processLinePrint_fst (show_ : Bool) (ls : List OllamaLine) :
    ∀ sp : AccState × List Char,
      (ls.foldl (processLinePrint show_) sp).1 = ls.foldl processLine sp.1 := by
  induction ls with
  | nil => intro sp; rfl
  | cons l ls ih =>
    intro sp
    rw [List.foldl_cons, List.foldl_cons, ih, processLinePrint_fst]

theorem officialStepPrint_fst (show_ : Bool)
    (acc : (List Char × List Char) × List Char) (d : List Char × List Char) :
    (officialStepPrint show_ acc d).1 = officialStep acc.1 d := by
  unfold officialStepPrint officialStep
  by_cases h1 : d.1 ≠ [] <;> by_cases h2 : d.2 ≠ [] <;> simp [h1, h2]

theorem foldl_officialStepPrint_fst (show_ : Bool)
    (ds : List (List Char × List Char)) :
    ∀ acc : (List Char × List Char) × List Char,
      (ds.foldl (officialStepPrint show_) acc).1
        = ds.foldl officialStep acc.1 := by
  induction ds with
  | nil => intro acc; rfl
  | cons d ds ih =>
    intro acc
    rw [List.foldl_cons, List.foldl_cons, ih, officialStepPrint_fst]

/-- C10: visibility noninterference.  Two runs that differ only in the
`show_reasoning` flag produce identical accumulator states (hence identical
returned reasoning) on the local path, identical accumulated contents on the
hosted path, and identical session logs and returned value at the dispatch
level — the flag influences only the printed terminal output. -/
theorem c10_visibility_noninterference :
    (∀ ls : List OllamaLine,
      (runReasoningStreamPrint true ls).1 = (runReasoningStreamPrint false ls).1) ∧
    (∀ ds : List (List Char × List Char),
      (officialRunPrint true ds).1 = (officialRunPrint false ds).1) ∧
    (∀ (s : Session) (u : List Char) (t : TurnStreams),
      (get_deepseek_reasoning { s with showReasoning := true } u t).1.deepseekMessages
          = (get_deepseek_reasoning { s with showReasoning := false } u t).1.deepseekMessages ∧
        (get_deepseek_reasoning { s with showReasoning := true } u t).2
          = (get_deepseek_reasoning { s with showReasoning := false } u t).2) := by
  refine ⟨?_, ?_, ?_⟩
  · intro ls
    rw [runReasoningStreamPrint, runReasoningStreamPrint,
      foldl_processLinePrint_fst, foldl_processLinePrint_fst]
  · intro ds
    rw [officialRunPrint, officialRunPrint,
      foldl_officialStepPrint_fst, foldl_officialStepPrint_fst]
  · intro s u t
    by_cases h1 : (¬ s.hasOfficialDeepseek ∨ s.useOllamaDeepseek)
    · rw [get_deepseek_reasoning, get_deepseek_reasoning,
        if_pos (show _ from h1), if_pos (show _ from h1)]
      rcases t with ⟨ds, tr, orr, olr⟩
      rcases tr with e | ls <;> exact ⟨rfl, rfl⟩
    · rw [get_deepseek_reasoning, get_deepseek_reasoning,
        if_neg (show _ from h1), if_neg (show _ from h1)]
      exact ⟨rfl, rfl⟩
